import Mathlib

/- Verification development for the BB92-style QKD client `app_alice.py`
   (repository qkd-strap).  The Python source is shallowly embedded:
   pure functions become Lean functions, in-place mutation of the pair
   list becomes explicit list transformation, Python exceptions
   (assertion failures, RuntimeError, ZeroDivisionError, IndexError)
   become `none`/failure of an `Option` computation, and Python float
   division of integer counts is modelled with exact rationals `ℚ`.
   `random.sample` and all peer-supplied messages enter as explicit
   parameters, so every theorem quantifies over them. -/

namespace QKD

/-! ### Framed channel: `recv_single_msg` / `send_single_msg`

The Python module keeps a global list `buf_msgs`; `recv_single_msg`
pops a buffered message if present, otherwise performs one transport
read, splits it on the delimiter `"EOF"` (Python `str.split`, dropping
the final piece via `[:-1]`), buffers the surplus and returns the first
piece.  `send_single_msg` appends the delimiter and writes. -/

/-- The wire delimiter, `EOF = "EOF"` in the source. -/
def EOFsep : List Char := "EOF".toList

/-- Helper used to phrase Python `str.split` recursion: prepend a
character to the first piece of an already-split remainder. -/
def consHead (c : Char) : List (List Char) → List (List Char)
  | [] => [[c]]
  | p :: ps => (c :: p) :: ps

/-- Python `s.split(sep)` for a non-empty separator, on character
lists: scan left to right; whenever `sep` occurs, close the current
piece and continue after the separator.  Structured with an explicit
fuel argument (any fuel of at least the string length gives the same
answer, see `pySplitGo_congr`) so that the recursion is structural. -/
def pySplitGo (sep : List Char) : Nat → List Char → List (List Char)
  | _, [] => [[]]
  | 0, _ :: _ => [[]]
  | fuel + 1, c :: cs =>
    if 0 < sep.length ∧ sep.isPrefixOf (c :: cs) = true then
      [] :: pySplitGo sep fuel (cs.drop (sep.length - 1))
    else
      consHead c (pySplitGo sep fuel cs)

/-- Python `s.split(sep)` on character lists. -/
def pySplit (sep s : List Char) : List (List Char) :=
  pySplitGo sep s.length s

/-- State of the framed channel from the receiver's side: the global
`buf_msgs` buffer plus the sequence of future transport reads
(`socket.recv()` results), consumed in order. -/
structure ChanState where
  buf : List (List Char)
  pending : List (List Char)
deriving DecidableEq

/-- `recv_single_msg`: return a buffered message if any; otherwise
take the next transport read, split it on the delimiter, drop the last
piece (`[:-1]`), return the first piece (`msgs[0]`, which raises
`IndexError` if no piece survives, modelled as `none`) and buffer the
rest (`msgs[1:]`). -/
def recvOne (sep : List Char) (st : ChanState) : Option (List Char × ChanState) :=
  match st.buf with
  | m :: rest => some (m, ⟨rest, st.pending⟩)
  | [] =>
    match st.pending with
    | [] => none
    | r :: rs =>
      match (pySplit sep r).dropLast with
      | [] => none
      | m :: surplus => some (m, ⟨surplus, rs⟩)

/-- Iterate `recv_single_msg` `n` times, collecting the messages. -/
def recvMany (sep : List Char) : Nat → ChanState → Option (List (List Char) × ChanState)
  | 0, st => some ([], st)
  | n + 1, st =>
    (recvOne sep st).bind fun ms =>
      (recvMany sep n ms.2).map fun rest => (ms.1 :: rest.1, rest.2)

/-- The byte stream produced by `send_single_msg` for each message in
order: every message is written followed by the delimiter. -/
def sendBytes (sep : List Char) (msgs : List (List Char)) : List Char :=
  (msgs.map (· ++ sep)).flatten

/-- A message is `clean` for a separator when no occurrence of the
separator starts inside the message once the trailing separator is
appended (so the scanner closes the piece exactly at the frame end). -/
def clean (sep m : List Char) : Prop :=
  ∀ i < m.length, sep.isPrefixOf (m.drop i ++ sep) = false

instance (sep m : List Char) : Decidable (clean sep m) := by
  unfold clean; infer_instance

/-- A chunk contains no occurrence of the separator at all. -/
def noDelim (sep s : List Char) : Prop :=
  ∀ i < s.length, sep.isPrefixOf (s.drop i) = false

instance (sep s : List Char) : Decidable (noDelim sep s) := by
  unfold noDelim; infer_instance

/-! ### Data model: `PairInfo` -/

/-- Information Alice has about one generated pair (`@dataclass
PairInfo`).  `basis`: 0 = Z, 1 = X.  Optional fields start `none` and
are filled in as the protocol progresses. -/
structure PairInfo where
  index : Nat
  basis : Nat
  outcome : Nat
  same_basis : Option Bool := none
  test_outcome : Option Bool := none
  same_outcome : Option Bool := none
deriving DecidableEq

/-- Messages Alice can place on the classical channel: the three
structured messages she actually sends, plus plain string messages
(the kind `socket.send` produces, e.g. the `"All qubits measured"`
sentinel or `"ACK"`). -/
inductive ClassicalMsg where
  | bases (payload : List (Nat × Nat))
  | testIndices (payload : List Nat)
  | testOutcomes (payload : List (Nat × Nat))
  | plain (s : String)
deriving DecidableEq

/-! ### Basis reconciliation: `filter_bases` -/

/-- Replace the element at position `i` (no-op when out of range),
mirroring Python positional assignment `pairs_info[i] = ...` at indices
that the caller has already checked to be in range. -/
def modifyAt (l : List PairInfo) (i : Nat) (f : PairInfo → PairInfo) : List PairInfo :=
  match l, i with
  | [], _ => []
  | x :: xs, 0 => f x :: xs
  | x :: xs, n + 1 => x :: modifyAt xs n f

/-- The reconciliation loop of `filter_bases`: walk the zipped local
and remote `(index, basis)` lists, `assert i == remote_i` (failure is
`none`), and store `same_basis = (basis == remote_basis)` at position
`i`. -/
def applyBasisUpdates (pairs : List PairInfo) :
    List ((Nat × Nat) × (Nat × Nat)) → Option (List PairInfo)
  | [] => some pairs
  | ((i, b), (ri, rb)) :: rest =>
    if i = ri then
      applyBasisUpdates
        (modifyAt pairs i fun p => { p with same_basis := some (b == rb) }) rest
    else
      none

/-- `filter_bases`: build the local `(index, basis)` list with
`enumerate`, send it (header `"Bases"`), receive the remote list, and
run the reconciliation loop.  Returns the sent message together with
the updated pair list. -/
def filter_bases (pairs : List PairInfo) (remote_bases : List (Nat × Nat)) :
    Option (ClassicalMsg × List PairInfo) := do
  let bases := pairs.enum.map fun ip => (ip.1, ip.2.basis)
  let pairs' ← applyBasisUpdates pairs (bases.zip remote_bases)
  pure (ClassicalMsg.bases bases, pairs')

/-! ### Error estimation: `estimate_error_rate` -/

/-- Indices of all pairs whose `same_basis` field is truthy
(line 107 of the source). -/
def same_basis_indices (pairs : List PairInfo) : List Nat :=
  (pairs.filter fun p => p.same_basis.getD false).map (·.index)

/-- Store `same_outcome := b` at position `i`; `none` when `i` is out
of range (Python `IndexError`). -/
def setSameOutcome (l : List PairInfo) (i : Nat) (b : Bool) : Option (List PairInfo) :=
  match l, i with
  | [], _ => none
  | p :: ps, 0 => some ({ p with same_outcome := some b } :: ps)
  | p :: ps, n + 1 => (setSameOutcome ps n b).map (p :: ·)

/-- The comparison loop of `estimate_error_rate`: walk the zipped
local and remote `(index, outcome)` test lists, `assert i1 == i2`,
record `same_outcome` at position `i1`, and count mismatches. -/
def loopCompare : List PairInfo → Nat → List ((Nat × Nat) × (Nat × Nat)) →
    Option (List PairInfo × Nat)
  | pairs, numError, [] => some (pairs, numError)
  | pairs, numError, ((i1, t1), (i2, t2)) :: rest =>
    if i1 = i2 then
      if t1 ≠ t2 then
        (setSameOutcome pairs i1 false).bind fun ps => loopCompare ps (numError + 1) rest
      else
        (setSameOutcome pairs i1 true).bind fun ps => loopCompare ps numError rest
    else
      none

/-- The marking loop (lines 115–118): set `pair.test_outcome =
pair.index in test_indices` for *every* pair. -/
def markTest (pairs : List PairInfo) (test_indices : List Nat) : List PairInfo :=
  pairs.map fun p => { p with test_outcome := some (test_indices.contains p.index) }

/-- Line 121: `test_outcomes = [(i, pairs_info[i].outcome) for i in
test_indices]` — positional indexing, `IndexError` is `none`. -/
def localTestOutcomes (pairsT : List PairInfo) (test_indices : List Nat) :
    Option (List (Nat × Nat)) :=
  test_indices.mapM fun i => (pairsT.get? i).map fun p => (i, p.outcome)

/-- `estimate_error_rate`.  The random sample `test_indices`
(`random.sample(same_basis_indices, min(num_test_bits, ...))`) and the
peer's `target_test_outcomes` enter as parameters.  Marks every pair's
`test_outcome`, builds the local `(index, outcome)` test list, runs
the comparison loop, and returns the two sent messages, the updated
pairs, and `num_error / num_test_bits` — a `ZeroDivisionError`
(`none`) when `num_test_bits == 0`. -/
def estimate_error_rate (pairs : List PairInfo) (num_test_bits : Nat)
    (test_indices : List Nat) (target_test_outcomes : List (Nat × Nat)) :
    Option (List ClassicalMsg × List PairInfo × ℚ) := do
  let pairsT := markTest pairs test_indices
  let test_outcomes ← localTestOutcomes pairsT test_indices
  let res ← loopCompare pairsT 0 (test_outcomes.zip target_test_outcomes)
  if num_test_bits = 0 then
    none
  else
    pure ([ClassicalMsg.testIndices test_indices,
           ClassicalMsg.testOutcomes test_outcomes],
          res.1, (res.2 : ℚ) / (num_test_bits : ℚ))

/-! ### Binary entropy and reporting -/

/-- Binary Shannon entropy `h` from the source: `0` at `p == 0` or
`p == 1`, otherwise `-p*log2(p) - (1-p)*log2(1-p)`. -/
noncomputable def h (p : ℚ) : ℝ :=
  if p = 0 ∨ p = 1 then 0
  else -(p : ℝ) * Real.logb 2 (p : ℝ) - (1 - (p : ℝ)) * Real.logb 2 (1 - (p : ℝ))

/-- Line 245: `raw_key = [pair.outcome for pair in pairs_info if (not
pair.test_outcome and pair.same_basis)]` — Python truthiness makes an
unset (`None`) field falsy, hence the `getD false` reading. -/
def raw_key (pairs : List PairInfo) : List Nat :=
  (pairs.filter fun p => !p.test_outcome.getD false && p.same_basis.getD false).map
    (·.outcome)

/-- The reported `secret_key` field: `raw_key[0:key_length]`. -/
def secret_key (pairs : List PairInfo) (key_length : Nat) : List Nat :=
  (raw_key pairs).take key_length

/-- `x_basis_count = sum(pair.basis for pair in pairs_info)`. -/
def x_basis_count (pairs : List PairInfo) : Nat :=
  (pairs.map (·.basis)).sum

/-- `z_basis_count = num_bits - x_basis_count`. -/
def z_basis_count (num_bits : Nat) (pairs : List PairInfo) : Int :=
  (num_bits : Int) - (x_basis_count pairs : Int)

/-- `same_basis_count = sum(pair.same_basis for pair in pairs_info)`:
the number of pairs with a truthy `same_basis` (the run always reaches
this line with booleans in the field). -/
def same_basis_count (pairs : List PairInfo) : Nat :=
  pairs.countP fun p => p.same_basis.getD false

/-- `outcome_comparison_count = sum(pair.test_outcome for pair in
pairs_info if pair.same_basis)`. -/
def outcome_comparison_count (pairs : List PairInfo) : Nat :=
  pairs.countP fun p => p.same_basis.getD false && p.test_outcome.getD false

/-- `sum(pair.same_outcome for pair in pairs_info if pair.test_outcome)`,
the subtrahend of `diff_outcome_count`. -/
def same_outcome_tested_count (pairs : List PairInfo) : Nat :=
  pairs.countP fun p => p.test_outcome.getD false && p.same_outcome.getD false

/-- `diff_outcome_count = outcome_comparison_count - sum(...)` (Python
integers, so the value may in principle be negative). -/
def diff_outcome_count (pairs : List PairInfo) : Int :=
  (outcome_comparison_count pairs : Int) - (same_outcome_tested_count pairs : Int)

/-- Lines 279–282: `qber = 1` when `outcome_comparison_count == 0`,
otherwise `diff_outcome_count / outcome_comparison_count`. -/
def qber (pairs : List PairInfo) : ℚ :=
  if outcome_comparison_count pairs = 0 then 1
  else (diff_outcome_count pairs : ℚ) / (outcome_comparison_count pairs : ℚ)

/-- Line 286: `key_rate_potential = 1 - 2 * h(qber)`, reported as-is. -/
noncomputable def key_rate_potential (pairs : List PairInfo) : ℝ :=
  1 - 2 * h (qber pairs)

/-! ### The classical phase of `main` -/

/-- The completion sentinel string. -/
def ALL_MEASURED : String := "All qubits measured"

/-- Lines 218–226: build `pairs_info` with `index = i`,
`basis = int(basis_flips[i])`, `outcome = int(bit_flips[i])`
(positional indexing, so `none` on short lists). -/
def mkPairs (num_bits : Nat) (basis_flips bit_flips : List Nat) :
    Option (List PairInfo) :=
  (List.range num_bits).mapM fun i =>
    (basis_flips.get? i).bind fun b =>
      (bit_flips.get? i).map fun o =>
        ({ index := i, basis := b, outcome := o } : PairInfo)

/-- The classical post-processing phase of `main`: build `pairs_info`
from the measured bases/outcomes, check that the first received
classical message is the `ALL_MEASURED` sentinel (`RuntimeError`,
i.e. `none`, otherwise), run `filter_bases` and
`estimate_error_rate`, and return, in order, the messages Alice sent,
the final pair list and the estimated error rate.  The peer's
messages `m0`, `remote_bases`, `target_test_outcomes` and the random
sample `test_indices` are parameters. -/
def main_run (num_bits : Nat) (basis_flips bit_flips : List Nat)
    (m0 : String) (remote_bases : List (Nat × Nat)) (test_indices : List Nat)
    (target_test_outcomes : List (Nat × Nat)) :
    Option (List ClassicalMsg × List PairInfo × ℚ) := do
  let num_test_bits := max (num_bits / 4) 1
  let pairs_info ← mkPairs num_bits basis_flips bit_flips
  if m0 = ALL_MEASURED then do
    let fb ← filter_bases pairs_info remote_bases
    let est ← estimate_error_rate fb.2 num_test_bits test_indices target_test_outcomes
    pure (fb.1 :: est.1, est.2.1, est.2.2)
  else
    none

/-- A small fully annotated pair list (the state after error
estimation) used to exercise the reporting definitions on concrete
data. -/
def C1pairs : List PairInfo :=
  [{ index := 0, basis := 0, outcome := 1, same_basis := some true,
     test_outcome := some false },
   { index := 1, basis := 1, outcome := 0, same_basis := some true,
     test_outcome := some true, same_outcome := some true },
   { index := 2, basis := 0, outcome := 1, same_basis := some false,
     test_outcome := some false },
   { index := 3, basis := 1, outcome := 1, same_basis := some true,
     test_outcome := some false }]

/-! ## Helper lemmas -/

theorem consHead_ne_nil (c : Char) (l : List (List Char)) : consHead c l ≠ [] := by
  cases l <;> simp [consHead]

theorem pySplitGo_congr (sep : List Char) :
    ∀ (f1 f2 : Nat) (s : List Char), s.length ≤ f1 → s.length ≤ f2 →
      pySplitGo sep f1 s = pySplitGo sep f2 s := by
  intro f1
  induction f1 with
  | zero =>
    intro f2 s h1 _
    cases s with
    | nil => cases f2 <;> rfl
    | cons c cs => simp at h1
  | succ g1 ih =>
    intro f2 s h1 h2
    cases s with
    | nil => cases f2 <;> rfl
    | cons c cs =>
      cases f2 with
      | zero => simp at h2
      | succ g2 =>
        show (if 0 < sep.length ∧ sep.isPrefixOf (c :: cs) = true then
            [] :: pySplitGo sep g1 (cs.drop (sep.length - 1))
          else consHead c (pySplitGo sep g1 cs)) =
          (if 0 < sep.length ∧ sep.isPrefixOf (c :: cs) = true then
            [] :: pySplitGo sep g2 (cs.drop (sep.length - 1))
          else consHead c (pySplitGo sep g2 cs))
        by_cases hc : 0 < sep.length ∧ sep.isPrefixOf (c :: cs) = true
        · rw [if_pos hc, if_pos hc,
            ih g2 (cs.drop (sep.length - 1))
              (by simp only [List.length_drop]; simp at h1; omega)
              (by simp only [List.length_drop]; simp at h2; omega)]
        · rw [if_neg hc, if_neg hc,
            ih g2 cs (by simp at h1; omega) (by simp at h2; omega)]

theorem pySplit_nil (sep : List Char) : pySplit sep [] = [[]] := rfl

theorem pySplit_cons_pos (sep : List Char) (c : Char) (cs : List Char)
    (h1 : 0 < sep.length) (h2 : sep.isPrefixOf (c :: cs) = true) :
    pySplit sep (c :: cs) = [] :: pySplit sep (cs.drop (sep.length - 1)) := by
  show (if 0 < sep.length ∧ sep.isPrefixOf (c :: cs) = true then
      [] :: pySplitGo sep cs.length (cs.drop (sep.length - 1))
    else consHead c (pySplitGo sep cs.length cs)) = _
  rw [if_pos ⟨h1, h2⟩, pySplitGo_congr sep cs.length (cs.drop (sep.length - 1)).length
    (cs.drop (sep.length - 1)) (by simp only [List.length_drop]; omega) le_rfl]
  rfl

theorem pySplit_cons_neg (sep : List Char) (c : Char) (cs : List Char)
    (h2 : ¬ (0 < sep.length ∧ sep.isPrefixOf (c :: cs) = true)) :
    pySplit sep (c :: cs) = consHead c (pySplit sep cs) := by
  show (if 0 < sep.length ∧ sep.isPrefixOf (c :: cs) = true then
      [] :: pySplitGo sep cs.length (cs.drop (sep.length - 1))
    else consHead c (pySplitGo sep cs.length cs)) = _
  rw [if_neg h2]
  rfl

theorem pySplit_ne_nil (sep s : List Char) : pySplit sep s ≠ [] := by
  cases s with
  | nil => simp [pySplit_nil]
  | cons c cs =>
    by_cases hc : 0 < sep.length ∧ sep.isPrefixOf (c :: cs) = true
    · rw [pySplit_cons_pos sep c cs hc.1 hc.2]
      simp
    · rw [pySplit_cons_neg sep c cs hc]
      exact consHead_ne_nil c _

theorem isPrefixOf_self (l : List Char) : l.isPrefixOf l = true := by
  induction l with
  | nil => rfl
  | cons a as ih => simp [List.isPrefixOf, ih]

theorem isPrefixOf_append_left (sep : List Char) :
    ∀ (x rest : List Char), sep.length ≤ x.length →
      sep.isPrefixOf (x ++ rest) = sep.isPrefixOf x := by
  induction sep with
  | nil => intro x rest _; simp [List.isPrefixOf]
  | cons a as ih =>
    intro x rest hlen
    cases x with
    | nil => simp at hlen
    | cons b bs =>
      simp only [List.cons_append, List.isPrefixOf, List.append_eq]
      rw [ih bs rest (by simpa using hlen)]

theorem isPrefixOf_append_self (sep rest : List Char) :
    sep.isPrefixOf (sep ++ rest) = true := by
  rw [isPrefixOf_append_left sep sep rest le_rfl]
  exact isPrefixOf_self sep

/-- Core splitting lemma: a clean message followed by the separator is
cut off as one whole piece, and scanning resumes right after the
separator. -/
theorem pySplit_clean_append (sep : List Char) (hsep : 0 < sep.length) :
    ∀ (m : List Char), clean sep m →
      ∀ rest, pySplit sep (m ++ (sep ++ rest)) = m :: pySplit sep rest := by
  intro m
  induction m with
  | nil =>
    intro _ rest
    obtain ⟨d, ds, hds⟩ : ∃ d ds, sep = d :: ds := by
      cases sep with
      | nil => simp at hsep
      | cons d ds => exact ⟨d, ds, rfl⟩
    subst hds
    rw [List.nil_append, List.cons_append,
      pySplit_cons_pos _ _ _ hsep
        (by rw [← List.cons_append]; exact isPrefixOf_append_self (d :: ds) rest)]
    simp
  | cons a m' ih =>
    intro hclean rest
    have hno : sep.isPrefixOf ((a :: m') ++ (sep ++ rest)) = false := by
      have hcl := hclean 0 (by simp)
      simp only [List.drop_zero] at hcl
      calc sep.isPrefixOf ((a :: m') ++ (sep ++ rest))
          = sep.isPrefixOf (((a :: m') ++ sep) ++ rest) := by rw [List.append_assoc]
        _ = sep.isPrefixOf ((a :: m') ++ sep) := by
            apply isPrefixOf_append_left
            simp only [List.length_append, List.length_cons]
            omega
        _ = false := hcl
    have hclean' : clean sep m' := by
      intro i hi
      have hcl := hclean (i + 1) (by simpa using Nat.succ_lt_succ hi)
      simpa using hcl
    simp only [List.cons_append] at hno
    rw [List.cons_append, pySplit_cons_neg sep a (m' ++ (sep ++ rest))
      (fun hcon => by rw [hno] at hcon; exact Bool.false_ne_true hcon.2),
      ih hclean' rest]
    rfl

/-- A chunk with no separator occurrence splits into a single piece. -/
theorem pySplit_noDelim (sep : List Char) :
    ∀ s, noDelim sep s → pySplit sep s = [s] := by
  intro s
  induction s with
  | nil => intro _; exact pySplit_nil sep
  | cons c cs ih =>
    intro hnd
    have h0 : sep.isPrefixOf (c :: cs) = false := by
      have := hnd 0 (by simp)
      simpa using this
    have hnd' : noDelim sep cs := by
      intro i hi
      have := hnd (i + 1) (by simpa using Nat.succ_lt_succ hi)
      simpa using this
    rw [pySplit_cons_neg sep c cs (by simp [h0]), ih hnd']
    rfl

theorem sendBytes_nil (sep : List Char) : sendBytes sep [] = [] := rfl

theorem sendBytes_cons (sep m : List Char) (ms : List (List Char)) :
    sendBytes sep (m :: ms) = m ++ (sep ++ sendBytes sep ms) := by
  simp [sendBytes]

theorem sendBytes_flatten (sep : List Char) (batches : List (List (List Char))) :
    (batches.map (sendBytes sep)).flatten = sendBytes sep batches.flatten := by
  induction batches with
  | nil => rfl
  | cons b bs ih =>
    simp only [List.map_cons, List.flatten_cons, ih, sendBytes, List.map_append,
      List.flatten_append]

/-- A whole aligned read of clean messages splits into exactly those
messages plus the empty final piece dropped by `[:-1]`. -/
theorem pySplit_sendBytes (sep : List Char) (hsep : 0 < sep.length) :
    ∀ (batch : List (List Char)), (∀ m ∈ batch, clean sep m) →
      pySplit sep (sendBytes sep batch) = batch ++ [[]] := by
  intro batch
  induction batch with
  | nil => intro _; simpa [sendBytes_nil] using pySplit_nil sep
  | cons m ms ih =>
    intro hclean
    rw [sendBytes_cons,
      pySplit_clean_append sep hsep m (hclean m (by simp)) (sendBytes sep ms),
      ih (fun x hx => hclean x (by simp [hx]))]
    rfl

/-- Buffered messages are served first, in order, with no transport
read, before any further receiving happens. -/
theorem recvMany_buf (sep : List Char) :
    ∀ (buf : List (List Char)) (n : Nat) (pending : List (List Char)),
      recvMany sep (buf.length + n) ⟨buf, pending⟩ =
        (recvMany sep n ⟨[], pending⟩).map fun p => (buf ++ p.1, p.2) := by
  intro buf
  induction buf with
  | nil =>
    intro n pending
    simp only [List.length_nil, Nat.zero_add, List.nil_append]
    cases recvMany sep n ⟨[], pending⟩ <;> rfl
  | cons m ms ih =>
    intro n pending
    have hlen : (m :: ms).length + n = (ms.length + n) + 1 := by
      simp only [List.length_cons]
      omega
    rw [hlen]
    show (recvOne sep ⟨m :: ms, pending⟩).bind _ = _
    have h1 : recvOne sep ⟨m :: ms, pending⟩ = some (m, ⟨ms, pending⟩) := rfl
    rw [h1]
    simp only [Option.some_bind]
    rw [ih n pending]
    cases recvMany sep n ⟨[], pending⟩ with
    | none => rfl
    | some p => rfl

/-- Receiving over boundary-aligned reads of clean messages yields all
sent messages, in send order, ending with empty buffer and no pending
reads. -/
theorem recvMany_batches (sep : List Char) (hsep : 0 < sep.length) :
    ∀ (batches : List (List (List Char))),
      (∀ b ∈ batches, b ≠ []) →
      (∀ b ∈ batches, ∀ m ∈ b, clean sep m) →
      recvMany sep batches.flatten.length ⟨[], batches.map (sendBytes sep)⟩ =
        some (batches.flatten, ⟨[], []⟩) := by
  intro batches
  induction batches with
  | nil => intro _ _; rfl
  | cons b bs ih =>
    intro hne hclean
    obtain ⟨m, ms, hb⟩ : ∃ m ms, b = m :: ms := by
      cases hbb : b with
      | nil => exact absurd hbb (hne b (by simp))
      | cons m ms => exact ⟨m, ms, rfl⟩
    subst hb
    have hsplit : pySplit sep (sendBytes sep (m :: ms)) = (m :: ms) ++ [[]] :=
      pySplit_sendBytes sep hsep (m :: ms) (hclean (m :: ms) (by simp))
    have hlen : ((m :: ms) :: bs).flatten.length =
        (ms.length + bs.flatten.length) + 1 := by
      simp only [List.flatten_cons, List.length_append, List.length_cons]
      omega
    rw [hlen]
    show (recvOne sep ⟨[], (sendBytes sep (m :: ms)) :: bs.map (sendBytes sep)⟩).bind _
        = _
    have h1 : recvOne sep ⟨[], (sendBytes sep (m :: ms)) :: bs.map (sendBytes sep)⟩ =
        some (m, ⟨ms, bs.map (sendBytes sep)⟩) := by
      unfold recvOne
      simp only [hsplit]
      have hdl : ((m :: ms) ++ [[]]).dropLast = m :: ms := List.dropLast_concat
      rw [hdl]
    rw [h1]
    simp only [Option.some_bind]
    rw [recvMany_buf sep ms bs.flatten.length (bs.map (sendBytes sep)),
      ih (fun x hx => hne x (by simp [hx])) (fun x hx => hclean x (by simp [hx]))]
    simp

theorem modifyAt_append (f : PairInfo → PairInfo) :
    ∀ (pre : List PairInfo) (x : PairInfo) (xs : List PairInfo),
      modifyAt (pre ++ x :: xs) pre.length f = pre ++ f x :: xs := by
  intro pre
  induction pre with
  | nil => intro x xs; rfl
  | cons p ps ih =>
    intro x xs
    simp only [List.cons_append, List.length_cons, modifyAt, List.append_eq, ih x xs]

theorem enumFrom_map_fst (f : PairInfo → Nat) :
    ∀ (l : List PairInfo) (n : Nat),
      (List.enumFrom n l).map (fun ip => (ip.1, f ip.2)) =
        List.enumFrom n (l.map f) := by
  intro l
  induction l with
  | nil => intro n; rfl
  | cons p ps ih =>
    intro n
    simp only [List.enumFrom, List.map_cons, ih (n + 1)]

theorem get?_zipWith (f : PairInfo → Nat → PairInfo) :
    ∀ (l1 : List PairInfo) (l2 : List Nat) (i : Nat) (x : PairInfo) (y : Nat),
      l1.get? i = some x → l2.get? i = some y →
      (List.zipWith f l1 l2).get? i = some (f x y) := by
  intro l1
  induction l1 with
  | nil => intro l2 i x y h1 _; simp at h1
  | cons a as ih =>
    intro l2 i x y h1 h2
    cases l2 with
    | nil => simp at h2
    | cons b bs =>
      cases i with
      | zero =>
        simp only [List.get?] at h1 h2
        cases h1; cases h2
        rfl
      | succ j =>
        simp only [List.get?] at h1 h2
        simp only [List.zipWith, List.get?]
        exact ih bs j x y h1 h2

/-- The reconciliation loop on index-aligned lists: every assertion
passes and each position receives `same_basis = (basis == peer
basis)`. -/
theorem applyBasisUpdates_aligned :
    ∀ (suf : List PairInfo) (pb : List Nat) (pre : List PairInfo),
      suf.length = pb.length →
      applyBasisUpdates (pre ++ suf)
        ((List.enumFrom pre.length (suf.map (·.basis))).zip
          (List.enumFrom pre.length pb)) =
      some (pre ++ List.zipWith
        (fun p rb => { p with same_basis := some (p.basis == rb) }) suf pb) := by
  intro suf
  induction suf with
  | nil =>
    intro pb pre hlen
    have hpb : pb = [] := by
      cases pb with
      | nil => rfl
      | cons _ _ => simp at hlen
    subst hpb
    rfl
  | cons p suf' ih =>
    intro pb pre hlen
    cases pb with
    | nil => simp at hlen
    | cons rb pb' =>
      show applyBasisUpdates (pre ++ p :: suf')
          (((pre.length, p.basis) ::
              List.enumFrom (pre.length + 1) (suf'.map (·.basis))).zip
            ((pre.length, rb) :: List.enumFrom (pre.length + 1) pb')) = _
      rw [List.zip_cons_cons]
      show (if pre.length = pre.length then
          applyBasisUpdates (modifyAt (pre ++ p :: suf') pre.length _) _
        else none) = _
      rw [if_pos rfl, modifyAt_append _ pre p suf']
      have hstep := ih pb' (pre ++ [{ p with same_basis := some (p.basis == rb) }])
        (by simp only [List.length_cons] at hlen; omega)
      simp only [List.length_append, List.length_cons, List.length_nil,
        Nat.zero_add] at hstep
      rw [List.zipWith_cons_cons,
        List.append_cons pre { p with same_basis := some (p.basis == rb) } suf',
        List.append_cons pre { p with same_basis := some (p.basis == rb) }
          (List.zipWith _ suf' pb')]
      exact hstep

/-- Every pair contributes to exactly one of: the raw key (matched
basis, untested), the outcome comparisons (matched basis, tested), or
neither (mismatched basis). -/
theorem raw_key_length_add (pairs : List PairInfo) :
    (raw_key pairs).length + outcome_comparison_count pairs =
      same_basis_count pairs := by
  have hlen : (raw_key pairs).length =
      pairs.countP fun p => !p.test_outcome.getD false && p.same_basis.getD false := by
    rw [raw_key, List.length_map, List.countP_eq_length_filter]
  rw [hlen, outcome_comparison_count, same_basis_count]
  clear hlen
  induction pairs with
  | nil => rfl
  | cons p ps ih =>
    simp only [List.countP_cons]
    cases hsb : p.same_basis.getD false <;> cases hto : p.test_outcome.getD false <;>
      simp [hsb, hto] <;> omega

theorem setSameOutcome_map (g : PairInfo → Nat × Option Bool)
    (hg : ∀ p b, g { p with same_outcome := some b } = g p) :
    ∀ (l : List PairInfo) (i : Nat) (b : Bool) (l' : List PairInfo),
      setSameOutcome l i b = some l' → l'.map g = l.map g := by
  intro l
  induction l with
  | nil => intro i b l' h; simp [setSameOutcome] at h
  | cons p ps ih =>
    intro i b l' h
    cases i with
    | zero =>
      simp only [setSameOutcome] at h
      cases h
      simp [hg]
    | succ j =>
      simp only [setSameOutcome] at h
      cases hrec : setSameOutcome ps j b with
      | none => rw [hrec] at h; simp at h
      | some ps' =>
        rw [hrec] at h
        simp only [Option.map_some'] at h
        cases h
        simp only [List.map_cons, ih j b ps' hrec]

theorem loopCompare_map (g : PairInfo → Nat × Option Bool)
    (hg : ∀ p b, g { p with same_outcome := some b } = g p) :
    ∀ (l : List ((Nat × Nat) × (Nat × Nat))) (pairs : List PairInfo) (n : Nat)
      (out : List PairInfo × Nat),
      loopCompare pairs n l = some out → out.1.map g = pairs.map g := by
  intro l
  induction l with
  | nil =>
    intro pairs n out h
    simp only [loopCompare] at h
    cases h
    rfl
  | cons u rest ih =>
    intro pairs n out h
    obtain ⟨⟨i1, t1⟩, ⟨i2, t2⟩⟩ := u
    simp only [loopCompare] at h
    by_cases hi : i1 = i2
    · rw [if_pos hi] at h
      by_cases ht : t1 ≠ t2
      · rw [if_pos ht] at h
        cases hset : setSameOutcome pairs i1 false with
        | none => rw [hset] at h; simp at h
        | some ps' =>
          rw [hset] at h
          simp only [Option.some_bind] at h
          rw [ih ps' (n + 1) out h, setSameOutcome_map g hg pairs i1 false ps' hset]
      · rw [if_neg ht] at h
        cases hset : setSameOutcome pairs i1 true with
        | none => rw [hset] at h; simp at h
        | some ps' =>
          rw [hset] at h
          simp only [Option.some_bind] at h
          rw [ih ps' n out h, setSameOutcome_map g hg pairs i1 true ps' hset]
    · rw [if_neg hi] at h
      simp at h

theorem loopCompare_count :
    ∀ (l : List ((Nat × Nat) × (Nat × Nat))) (pairs : List PairInfo) (n : Nat)
      (out : List PairInfo × Nat),
      loopCompare pairs n l = some out →
      out.2 = n + l.countP (fun u => u.1.2 != u.2.2) := by
  intro l
  induction l with
  | nil =>
    intro pairs n out h
    simp only [loopCompare] at h
    cases h
    rfl
  | cons u rest ih =>
    intro pairs n out h
    obtain ⟨⟨i1, t1⟩, ⟨i2, t2⟩⟩ := u
    simp only [loopCompare] at h
    by_cases hi : i1 = i2
    · rw [if_pos hi] at h
      by_cases ht : t1 ≠ t2
      · rw [if_pos ht] at h
        cases hset : setSameOutcome pairs i1 false with
        | none => rw [hset] at h; simp at h
        | some ps' =>
          rw [hset] at h
          simp only [Option.some_bind] at h
          have hcount := ih ps' (n + 1) out h
          simp only [List.countP_cons]
          have htb : (t1 != t2) = true := by simpa using ht
          simp [htb]
          omega
      · rw [if_neg ht] at h
        cases hset : setSameOutcome pairs i1 true with
        | none => rw [hset] at h; simp at h
        | some ps' =>
          rw [hset] at h
          simp only [Option.some_bind] at h
          have hcount := ih ps' n out h
          simp only [List.countP_cons]
          have htb : (t1 != t2) = false := by simpa using ht
          simp [htb]
          omega
    · rw [if_neg hi] at h
      simp at h

/-- Success inversion for `estimate_error_rate`: on a `some` result
the local test-outcome list and the comparison loop both succeeded,
`num_test_bits` is nonzero (otherwise the final division raises), and
the result is assembled from them. -/
theorem estimate_inv (pairs : List PairInfo) (k : Nat) (ti : List Nat)
    (tgt : List (Nat × Nat)) (out : List ClassicalMsg × List PairInfo × ℚ)
    (h : estimate_error_rate pairs k ti tgt = some out) :
    ∃ touts res,
      localTestOutcomes (markTest pairs ti) ti = some touts ∧
      loopCompare (markTest pairs ti) 0 (touts.zip tgt) = some res ∧
      k ≠ 0 ∧
      out = ([ClassicalMsg.testIndices ti, ClassicalMsg.testOutcomes touts],
        res.1, (res.2 : ℚ) / (k : ℚ)) := by
  simp only [estimate_error_rate] at h
  cases hm : localTestOutcomes (markTest pairs ti) ti with
  | none => rw [hm] at h; simp at h
  | some touts =>
    rw [hm] at h
    simp only [Option.bind_eq_bind, Option.some_bind] at h
    cases hl : loopCompare (markTest pairs ti) 0 (touts.zip tgt) with
    | none => rw [hl] at h; simp at h
    | some res =>
      rw [hl] at h
      simp only [Option.bind_eq_bind, Option.some_bind] at h
      by_cases hk : k = 0
      · rw [if_pos hk] at h; simp at h
      · rw [if_neg hk] at h
        simp only [Option.pure_def, Option.some_inj] at h
        exact ⟨touts, res, rfl, hl, hk, h.symm⟩

theorem markTest_nil (pairs : List PairInfo) :
    markTest pairs [] = pairs.map fun p => { p with test_outcome := some false } :=
  rfl

theorem localTestOutcomes_nil (pairsT : List PairInfo) :
    localTestOutcomes pairsT [] = some [] :=
  rfl

theorem h_zero : h 0 = 0 := by simp [h]

theorem h_one : h 1 = 0 := by simp [h]

theorem h_formula (p : ℚ) (h0 : p ≠ 0) (h1 : p ≠ 1) :
    h p = -(p : ℝ) * Real.logb 2 (p : ℝ) -
      (1 - (p : ℝ)) * Real.logb 2 (1 - (p : ℝ)) := by
  rw [h, if_neg (by tauto)]

theorem h_nonneg (p : ℚ) (hp0 : 0 ≤ p) (hp1 : p ≤ 1) : 0 ≤ h p := by
  by_cases hc : p = 0 ∨ p = 1
  · rw [h, if_pos hc]
  · push_neg at hc
    rw [h_formula p hc.1 hc.2]
    have hq0 : (0 : ℝ) < (p : ℝ) := by
      have hne : (0 : ℚ) < p := lt_of_le_of_ne hp0 (Ne.symm hc.1)
      exact_mod_cast hne
    have hq1 : (p : ℝ) < 1 := by
      have hne : p < 1 := lt_of_le_of_ne hp1 hc.2
      exact_mod_cast hne
    have l1 : Real.logb 2 (p : ℝ) ≤ 0 :=
      Real.logb_nonpos (by norm_num) (le_of_lt hq0) (le_of_lt hq1)
    have l2 : Real.logb 2 (1 - (p : ℝ)) ≤ 0 :=
      Real.logb_nonpos (by norm_num) (by linarith) (by linarith)
    nlinarith [mul_nonneg (le_of_lt hq0) (neg_nonneg.mpr l1),
      mul_nonneg (by linarith : (0 : ℝ) ≤ 1 - (p : ℝ)) (neg_nonneg.mpr l2)]

theorem h_half : h (1 / 2 : ℚ) = 1 := by
  rw [h_formula (1 / 2 : ℚ) (by norm_num) (by norm_num)]
  push_cast
  have he : (1 : ℝ) - 1 / 2 = 1 / 2 := by norm_num
  rw [he]
  have hl : Real.logb 2 ((1 : ℝ) / 2) = -1 := by
    rw [show (1 : ℝ) / 2 = 2⁻¹ by norm_num, Real.logb_inv,
      Real.logb_self_eq_one (by norm_num)]
  rw [hl]
  ring

/-- On success `filter_bases` sent exactly one message: the
enumerated local basis list under the `"Bases"` header. -/
theorem filter_bases_inv (pairs : List PairInfo) (rb : List (Nat × Nat))
    (fb : ClassicalMsg × List PairInfo) (h : filter_bases pairs rb = some fb) :
    fb.1 = ClassicalMsg.bases (pairs.enum.map fun ip => (ip.1, ip.2.basis)) := by
  simp only [filter_bases] at h
  cases ha : applyBasisUpdates pairs
      ((pairs.enum.map fun ip => (ip.1, ip.2.basis)).zip rb) with
  | none => rw [ha] at h; simp at h
  | some u =>
    rw [ha] at h
    simp only [Option.bind_eq_bind, Option.some_bind, Option.pure_def,
      Option.some_inj] at h
    rw [← h]

/-- Success inversion for `main_run`: the first received message was
the sentinel, and the messages Alice sent are exactly one `Bases`
message followed by the two error-estimation messages. -/
theorem main_run_inv (nb : Nat) (bf of : List Nat) (m0 : String)
    (rb : List (Nat × Nat)) (ti : List Nat) (tgt : List (Nat × Nat))
    (out : List ClassicalMsg × List PairInfo × ℚ)
    (h : main_run nb bf of m0 rb ti tgt = some out) :
    m0 = ALL_MEASURED ∧
    ∃ pairs fb touts,
      mkPairs nb bf of = some pairs ∧
      out.1 = [ClassicalMsg.bases (pairs.enum.map fun ip => (ip.1, ip.2.basis)),
        ClassicalMsg.testIndices ti, ClassicalMsg.testOutcomes touts] ∧
      filter_bases pairs rb = some fb ∧
      localTestOutcomes (markTest fb.2 ti) ti = some touts := by
  simp only [main_run] at h
  cases hp : mkPairs nb bf of with
  | none => rw [hp] at h; simp at h
  | some pairs =>
    rw [hp] at h
    simp only [Option.bind_eq_bind, Option.some_bind] at h
    by_cases hm0 : m0 = ALL_MEASURED
    · rw [if_pos hm0] at h
      cases hfb : filter_bases pairs rb with
      | none => rw [hfb] at h; simp at h
      | some fb =>
        rw [hfb] at h
        simp only [Option.some_bind] at h
        cases hest : estimate_error_rate fb.2 (max (nb / 4) 1) ti tgt with
        | none => rw [hest] at h; simp at h
        | some est =>
          rw [hest] at h
          simp only [Option.some_bind, Option.pure_def, Option.some_inj] at h
          obtain ⟨touts, res, hm, hl, hk', hout⟩ :=
            estimate_inv fb.2 (max (nb / 4) 1) ti tgt est hest
          refine ⟨hm0, pairs, fb, touts, rfl, ?_, hfb, hm⟩
          rw [← h]
          show fb.1 :: est.1 = _
          rw [filter_bases_inv pairs rb fb hfb, hout]
    · rw [if_neg hm0] at h
      simp at h

/-- The concrete one-pair run: Bob's sentinel arrives first, bases
match, the single pair is sampled and compared, no mismatch. -/
theorem main_run_concrete :
    main_run 1 [0] [0] ALL_MEASURED [(0, 0)] [0] [(0, 0)] =
      some ([ClassicalMsg.bases [(0, 0)], ClassicalMsg.testIndices [0],
        ClassicalMsg.testOutcomes [(0, 0)]],
        [{ index := 0, basis := 0, outcome := 0, same_basis := some true,
           test_outcome := some true, same_outcome := some true }], 0) := by
  show (some ([ClassicalMsg.bases [(0, 0)], ClassicalMsg.testIndices [0],
      ClassicalMsg.testOutcomes [(0, 0)]],
      ([{ index := 0, basis := 0, outcome := 0, same_basis := some true,
          test_outcome := some true, same_outcome := some true }] : List PairInfo),
      ((0 : Nat) : ℚ) / ((1 : Nat) : ℚ)) :
        Option (List ClassicalMsg × List PairInfo × ℚ)) = _
  norm_num

/-! ## Claims -/

/-- C3: whenever every tested pair is a matched-basis pair (as in any
run in which the peer's test-outcome list is index-aligned with the
local one, see `C9_test_marks`), the reported `qber` lies in `[0, 1]`,
and `qber = 1` whenever `outcome_comparison_count = 0`. -/
theorem C3_qber_range (pairs : List PairInfo)
    (hta : ∀ p ∈ pairs, p.test_outcome.getD false = true →
      p.same_basis.getD false = true) :
    0 ≤ qber pairs ∧ qber pairs ≤ 1 ∧
    (outcome_comparison_count pairs = 0 → qber pairs = 1) := by
  by_cases hocc : outcome_comparison_count pairs = 0
  · rw [qber, if_pos hocc]
    norm_num
  · have hcount : same_outcome_tested_count pairs ≤
        outcome_comparison_count pairs := by
      apply List.countP_mono_left
      intro p hp hpred
      have hto : p.test_outcome.getD false = true :=
        (Bool.and_eq_true_iff.mp hpred).1
      have hsb := hta p hp hto
      simp [hsb, hto]
    have hoccQ : (0 : ℚ) < (outcome_comparison_count pairs : ℚ) := by
      exact_mod_cast Nat.pos_of_ne_zero hocc
    have hcQ : (same_outcome_tested_count pairs : ℚ) ≤
        (outcome_comparison_count pairs : ℚ) := by exact_mod_cast hcount
    rw [qber, if_neg hocc]
    refine ⟨?_, ?_, fun hz => absurd hz hocc⟩
    · apply div_nonneg _ (le_of_lt hoccQ)
      rw [diff_outcome_count]
      push_cast
      linarith
    · rw [div_le_one hoccQ, diff_outcome_count]
      push_cast
      have : (0 : ℚ) ≤ (same_outcome_tested_count pairs : ℚ) := by positivity
      linarith

/-- C3 witness: a concrete annotated run state with one compared pair
and no mismatch. -/
theorem C3_qber_range_witness :
    0 ≤ qber C1pairs ∧ qber C1pairs ≤ 1 ∧
    (outcome_comparison_count C1pairs = 0 → qber C1pairs = 1) :=
  C3_qber_range C1pairs (by decide)

/-- C5: the reported key-rate potential is `1 − 2·H(qber)` where `H`
is binary Shannon entropy with `H(0) = H(1) = 0` and
`H(p) = −p·log2(p) − (1−p)·log2(1−p)` otherwise; it equals `1` when
`qber = 0`, is at most `1` for every `qber ∈ [0, 1]` (conjuncts six
and seven), and can be negative (`1 − 2·H(1/2) = −1 < 0`); it is
reported as-is — `key_rate_potential` is literally `1 - 2 * h (qber)`,
with no clamping. -/
theorem C5_key_rate (pairs : List PairInfo) (q p : ℚ)
    (hq0 : 0 ≤ q) (hq1 : q ≤ 1) (hp0 : p ≠ 0) (hp1 : p ≠ 1) :
    key_rate_potential pairs = 1 - 2 * h (qber pairs) ∧
    h 0 = 0 ∧ h 1 = 0 ∧
    h p = -(p : ℝ) * Real.logb 2 (p : ℝ) -
      (1 - (p : ℝ)) * Real.logb 2 (1 - (p : ℝ)) ∧
    (qber pairs = 0 → key_rate_potential pairs = 1) ∧
    1 - 2 * h q ≤ 1 ∧
    (0 ≤ qber pairs → qber pairs ≤ 1 → key_rate_potential pairs ≤ 1) ∧
    1 - 2 * h (1 / 2 : ℚ) < 0 := by
  refine ⟨rfl, h_zero, h_one, h_formula p hp0 hp1, ?_, ?_, ?_, ?_⟩
  · intro hq
    rw [key_rate_potential, hq, h_zero]
    norm_num
  · have := h_nonneg q hq0 hq1
    linarith
  · intro h0 h1
    rw [key_rate_potential]
    have := h_nonneg (qber pairs) h0 h1
    linarith
  · rw [h_half]
    norm_num

/-- C5 witness: instantiated at the empty run state (`qber = 1`),
`q = 1/3` and `p = 1/2`. -/
theorem C5_key_rate_witness :
    key_rate_potential [] = 1 - 2 * h (qber []) ∧
    h 0 = 0 ∧ h 1 = 0 ∧
    h (1 / 2 : ℚ) = -((1 / 2 : ℚ) : ℝ) * Real.logb 2 ((1 / 2 : ℚ) : ℝ) -
      (1 - ((1 / 2 : ℚ) : ℝ)) * Real.logb 2 (1 - ((1 / 2 : ℚ) : ℝ)) ∧
    (qber [] = 0 → key_rate_potential [] = 1) ∧
    1 - 2 * h (1 / 3 : ℚ) ≤ 1 ∧
    (0 ≤ qber [] → qber [] ≤ 1 → key_rate_potential [] ≤ 1) ∧
    1 - 2 * h (1 / 2 : ℚ) < 0 :=
  C5_key_rate [] (1 / 3) (1 / 2) (by norm_num) (by norm_num)
    (by norm_num) (by norm_num)

/-- C8: when no outcomes were compared the conservative fallback sets
`qber = 1`, yet the reported key-rate potential is
`1 − 2·H(1) = 1 − 0 = 1` — the maximal value `1 − 2·H` attains on
`[0, 1]` — so the worst-case error-rate fallback yields the most
optimistic key-rate report. -/
theorem C8_worst_case_qber (pairs : List PairInfo) (q : ℚ)
    (hocc : outcome_comparison_count pairs = 0) (hq0 : 0 ≤ q) (hq1 : q ≤ 1) :
    qber pairs = 1 ∧ key_rate_potential pairs = 1 ∧ 1 - 2 * h q ≤ 1 := by
  have hq : qber pairs = 1 := by rw [qber, if_pos hocc]
  refine ⟨hq, ?_, ?_⟩
  · rw [key_rate_potential, hq, h_one]
    norm_num
  · have := h_nonneg q hq0 hq1
    linarith

/-- C8 witness: the empty run state compares no outcomes. -/
theorem C8_worst_case_qber_witness :
    qber [] = 1 ∧ key_rate_potential [] = 1 ∧ 1 - 2 * h (1 / 2 : ℚ) ≤ 1 :=
  C8_worst_case_qber [] (1 / 2) rfl (by norm_num) (by norm_num)

/-- C1: for a fully annotated pair sequence (every `same_basis` and
`test_outcome` field set, as after error estimation) in ascending
index order, the raw key is exactly the outcomes of the pairs with
`same_basis == true` and `is_test == false` in ascending index order;
the secret key is the raw key truncated to its first `L` bits, with
all of them (no padding, no error) when fewer than `L` qualify; hence
`len(secret_key) ≤ L` and `len(raw_key) ≤ same_basis_count -
outcome_comparison_count`. -/
theorem C1_raw_secret_key (pairs : List PairInfo) (L : Nat)
    (hann : ∀ p ∈ pairs, p.same_basis ≠ none ∧ p.test_outcome ≠ none)
    (hsort : pairs.Pairwise fun p q => p.index < q.index) :
    raw_key pairs =
      (pairs.filter fun p =>
        p.same_basis == some true && p.test_outcome == some false).map (·.outcome) ∧
    ((pairs.filter fun p =>
        p.same_basis == some true && p.test_outcome == some false).map
      (·.index)).Pairwise (· < ·) ∧
    secret_key pairs L = (raw_key pairs).take L ∧
    (secret_key pairs L).length ≤ L ∧
    ((raw_key pairs).length ≤ L → secret_key pairs L = raw_key pairs) ∧
    (raw_key pairs).length ≤
      same_basis_count pairs - outcome_comparison_count pairs := by
  have hfil : (pairs.filter fun p =>
      !p.test_outcome.getD false && p.same_basis.getD false) =
      (pairs.filter fun p =>
        p.same_basis == some true && p.test_outcome == some false) := by
    apply List.filter_congr
    intro p hp
    obtain ⟨hsb, hto⟩ := hann p hp
    obtain ⟨b, hb⟩ := Option.ne_none_iff_exists'.mp hsb
    obtain ⟨t, ht⟩ := Option.ne_none_iff_exists'.mp hto
    rw [hb, ht]
    cases b <;> cases t <;> rfl
  refine ⟨by rw [raw_key, hfil], ?_, rfl, ?_, ?_, ?_⟩
  · exact List.pairwise_map.mpr
      (List.Pairwise.sublist (List.filter_sublist pairs) hsort)
  · rw [secret_key, List.length_take]
    exact min_le_left L _
  · intro hle
    rw [secret_key, List.take_of_length_le hle]
  · have hadd := raw_key_length_add pairs
    omega

/-- C1 witness: four annotated pairs, two of which qualify for the
raw key; with `L = 1` the secret key is the first qualifying bit. -/
theorem C1_raw_secret_key_witness :
    raw_key C1pairs =
      (C1pairs.filter fun p =>
        p.same_basis == some true && p.test_outcome == some false).map (·.outcome) ∧
    ((C1pairs.filter fun p =>
        p.same_basis == some true && p.test_outcome == some false).map
      (·.index)).Pairwise (· < ·) ∧
    secret_key C1pairs 1 = (raw_key C1pairs).take 1 ∧
    (secret_key C1pairs 1).length ≤ 1 ∧
    ((raw_key C1pairs).length ≤ 1 → secret_key C1pairs 1 = raw_key C1pairs) ∧
    (raw_key C1pairs).length ≤
      same_basis_count C1pairs - outcome_comparison_count C1pairs :=
  C1_raw_secret_key C1pairs 1 (by decide) (by decide)

/-- C2, counterexample: `estimate_error_rate` does *not* return the
conservative error rate `1` in the degenerate cases.  With `k == 0`
the final `num_error / num_test_bits` is a `ZeroDivisionError` (no
value is returned); with a nonempty pair list whose matched-basis pool
is empty and `k == 3` the function completes normally and returns
error rate `0`, not `1`.  (The forced sample for both cases is `[]`,
since `random.sample` draws `min(k, 0) = 0` indices.) -/
theorem C2_counterexample :
    estimate_error_rate [] 0 [] [] = none ∧
    estimate_error_rate
        [{ index := 0, basis := 0, outcome := 0, same_basis := some false }] 3 [] [] =
      some ([ClassicalMsg.testIndices [], ClassicalMsg.testOutcomes []],
        [{ index := 0, basis := 0, outcome := 0, same_basis := some false,
           test_outcome := some false }], 0) ∧
    (0 : ℚ) ≠ 1 := by
  refine ⟨rfl, ?_, by norm_num⟩
  simp only [estimate_error_rate, localTestOutcomes_nil, Option.bind_eq_bind,
    Option.some_bind, List.zip_nil_left, loopCompare, markTest_nil]
  norm_num

/-- C2 (amended): `estimate_error_rate` returns
`error_count / num_test_bits` when `num_test_bits ≠ 0` (third
conjunct, with `error_count` the number of mismatching compared
outcome pairs); when the matched-basis pool is empty (forced empty
sample) and `k ≠ 0` it returns error rate `0` without raising
(second conjunct); and when `num_test_bits == 0` it raises
`ZeroDivisionError` — no value — instead of returning `1` (first
conjunct).  The conservative fallback to `1` lives in `main`'s `qber`
computation, not here. -/
theorem C2_error_rate (pairs : List PairInfo) (k : Nat) (ti : List Nat)
    (tgt : List (Nat × Nat)) (out : List ClassicalMsg × List PairInfo × ℚ) :
    estimate_error_rate pairs 0 ti tgt = none ∧
    (k ≠ 0 → estimate_error_rate pairs k [] tgt =
      some ([ClassicalMsg.testIndices [], ClassicalMsg.testOutcomes []],
        pairs.map fun p => { p with test_outcome := some false }, 0)) ∧
    (estimate_error_rate pairs k ti tgt = some out →
      k ≠ 0 ∧
      out.2.2 =
        ((((localTestOutcomes (markTest pairs ti) ti).getD []).zip tgt).countP
          (fun u => u.1.2 != u.2.2) : ℚ) / (k : ℚ)) := by
  refine ⟨?_, ?_, ?_⟩
  · cases hsome : estimate_error_rate pairs 0 ti tgt with
    | none => rfl
    | some o =>
      obtain ⟨_, _, _, _, hk0, _⟩ := estimate_inv pairs 0 ti tgt o hsome
      exact absurd rfl hk0
  · intro hk
    simp only [estimate_error_rate, localTestOutcomes_nil, Option.bind_eq_bind,
      Option.some_bind, List.zip_nil_left, loopCompare, markTest_nil, if_neg hk]
    norm_num
  · intro h
    obtain ⟨touts, res, hm, hl, hk', hout⟩ := estimate_inv pairs k ti tgt out h
    refine ⟨hk', ?_⟩
    rw [hout]
    show (res.2 : ℚ) / (k : ℚ) = _
    rw [hm]
    simp only [Option.getD_some]
    rw [loopCompare_count (touts.zip tgt) _ 0 res hl]
    norm_num

/-- C2 witness: concrete instances of the three behaviours at
`pairs = []`, `k = 1`. -/
theorem C2_error_rate_witness :
    estimate_error_rate [] 0 [] [] = none ∧
    estimate_error_rate [] 1 [] [] =
      some ([ClassicalMsg.testIndices [], ClassicalMsg.testOutcomes []], [], 0) ∧
    ((1 : Nat) ≠ 0 ∧
      (([ClassicalMsg.testIndices [], ClassicalMsg.testOutcomes []],
        ([] : List PairInfo), (0 : ℚ)) :
          List ClassicalMsg × List PairInfo × ℚ).2.2 =
        ((((localTestOutcomes (markTest [] []) []).getD []).zip
            ([] : List (Nat × Nat))).countP (fun u => u.1.2 != u.2.2) : ℚ) /
          ((1 : Nat) : ℚ)) :=
  ⟨(C2_error_rate [] 1 [] []
      ([ClassicalMsg.testIndices [], ClassicalMsg.testOutcomes []], [], 0)).1,
   (C2_error_rate [] 1 [] []
      ([ClassicalMsg.testIndices [], ClassicalMsg.testOutcomes []], [], 0)).2.1
     (by decide),
   (C2_error_rate [] 1 [] []
      ([ClassicalMsg.testIndices [], ClassicalMsg.testOutcomes []], [], 0)).2.2
     (by
       have hbase := (C2_error_rate [] 1 [] []
         ([ClassicalMsg.testIndices [], ClassicalMsg.testOutcomes []], [], 0)).2.1
         (by decide)
       simpa using hbase)⟩

/-- C9: after a successful `estimate_error_rate` every pair in the
returned sequence — including pairs with `same_basis == false` — has
`test_outcome` set to a boolean, `some true` exactly at sampled
indices and `some false` everywhere else (first conjunct; indices are
unchanged by the second), and, since the sample is drawn from the
matched-basis pool (`hsub`, a guarantee of `random.sample`), the
`some true` marks sit only on matched-basis indices (third conjunct).
The subsequent raw-key filter therefore never reads an unset
`is_test` field. -/
theorem C9_test_marks (pairs : List PairInfo) (k : Nat) (ti : List Nat)
    (tgt : List (Nat × Nat)) (out : List ClassicalMsg × List PairInfo × ℚ)
    (hrun : estimate_error_rate pairs k ti tgt = some out)
    (hsub : ∀ i ∈ ti, i ∈ same_basis_indices pairs) :
    out.2.1.map (fun p => p.test_outcome) =
      pairs.map (fun p => some (ti.contains p.index)) ∧
    out.2.1.map (fun p => p.index) = pairs.map (fun p => p.index) ∧
    (out.2.1.filter fun p => p.test_outcome == some true).map (·.index) ⊆
      same_basis_indices pairs := by
  obtain ⟨touts, res, hm, hl, hk', hout⟩ := estimate_inv pairs k ti tgt out hrun
  have hout1 : out.2.1 = res.1 := by rw [hout]
  have hg : res.1.map (fun p => (p.index, p.test_outcome)) =
      pairs.map (fun p => (p.index, some (ti.contains p.index))) := by
    rw [loopCompare_map (fun p => (p.index, p.test_outcome)) (fun p b => rfl)
      (touts.zip tgt) _ 0 res hl]
    simp only [markTest, List.map_map]
    rfl
  have h1 : res.1.map (fun p => p.test_outcome) =
      pairs.map (fun p => some (ti.contains p.index)) := by
    have hc := congrArg (List.map Prod.snd) hg
    simpa only [List.map_map] using hc
  have h2 : res.1.map (fun p => p.index) = pairs.map (fun p => p.index) := by
    have hc := congrArg (List.map Prod.fst) hg
    simpa only [List.map_map] using hc
  refine ⟨by rw [hout1]; exact h1, by rw [hout1]; exact h2, ?_⟩
  rw [hout1]
  intro x hx
  obtain ⟨p', hp'f, hp'x⟩ := List.mem_map.mp hx
  have hp'mem : p' ∈ res.1 := List.mem_of_mem_filter hp'f
  have hp'true : p'.test_outcome = some true := by
    have := List.of_mem_filter hp'f
    simpa using this
  have hgp : (p'.index, p'.test_outcome) ∈
      pairs.map (fun p => (p.index, some (ti.contains p.index))) := by
    rw [← hg]
    exact List.mem_map_of_mem _ hp'mem
  obtain ⟨q, hq, hqeq⟩ := List.mem_map.mp hgp
  have hqi : q.index = p'.index := congrArg Prod.fst hqeq
  have hqt : some (ti.contains q.index) = p'.test_outcome := congrArg Prod.snd hqeq
  rw [hp'true] at hqt
  have hmem : q.index ∈ ti := List.elem_iff.mp (Option.some_inj.mp hqt)
  have := hsub q.index hmem
  rw [hqi] at this
  rw [← hp'x]
  exact this

/-- C9 witness: one matched-basis pair sampled for testing. -/
theorem C9_test_marks_witness :
    ([{ index := 0, basis := 0, outcome := 0, same_basis := some true,
        test_outcome := some true, same_outcome := some true }] :
      List PairInfo).map (fun p => p.test_outcome) =
      ([{ index := 0, basis := 0, outcome := 0, same_basis := some true }] :
        List PairInfo).map (fun p => some (([0] : List Nat).contains p.index)) ∧
    ([{ index := 0, basis := 0, outcome := 0, same_basis := some true,
        test_outcome := some true, same_outcome := some true }] :
      List PairInfo).map (fun p => p.index) =
      ([{ index := 0, basis := 0, outcome := 0, same_basis := some true }] :
        List PairInfo).map (fun p => p.index) ∧
    (([{ index := 0, basis := 0, outcome := 0, same_basis := some true,
         test_outcome := some true, same_outcome := some true }] :
      List PairInfo).filter fun p => p.test_outcome == some true).map (·.index) ⊆
      same_basis_indices
        [{ index := 0, basis := 0, outcome := 0, same_basis := some true }] := by
  have hrun : estimate_error_rate
      [{ index := 0, basis := 0, outcome := 0, same_basis := some true }] 1 [0] [(0, 0)] =
      some ([ClassicalMsg.testIndices [0], ClassicalMsg.testOutcomes [(0, 0)]],
        [{ index := 0, basis := 0, outcome := 0, same_basis := some true,
           test_outcome := some true, same_outcome := some true }], 0) := by
    show (if (1 : Nat) = 0 then (none : Option (List ClassicalMsg × List PairInfo × ℚ))
      else some ([ClassicalMsg.testIndices [0], ClassicalMsg.testOutcomes [(0, 0)]],
        ([{ index := 0, basis := 0, outcome := 0, same_basis := some true,
            test_outcome := some true, same_outcome := some true }] : List PairInfo),
        ((0 : Nat) : ℚ) / ((1 : Nat) : ℚ))) =
      some ([ClassicalMsg.testIndices [0], ClassicalMsg.testOutcomes [(0, 0)]],
        ([{ index := 0, basis := 0, outcome := 0, same_basis := some true,
            test_outcome := some true, same_outcome := some true }] : List PairInfo), 0)
    norm_num
  have hw := C9_test_marks
    [{ index := 0, basis := 0, outcome := 0, same_basis := some true }] 1 [0] [(0, 0)]
    ([ClassicalMsg.testIndices [0], ClassicalMsg.testOutcomes [(0, 0)]],
      [{ index := 0, basis := 0, outcome := 0, same_basis := some true,
         test_outcome := some true, same_outcome := some true }], 0)
    hrun (by decide)
  exact hw

/-- C4: basis reconciliation is a pure function of the two basis
lists.  For index-aligned local and peer `(index, basis)` lists of
equal length `n`, `filter_bases` succeeds (all alignment assertions
pass), sends the enumerated local basis list, and returns the pair
list where every position `i` carries `same_basis = (local_basis[i] ==
peer_basis[i])` with `index`, `basis`, `outcome` and the remaining
fields untouched (visible in the record update), as the pointwise
second conjunct spells out. -/
theorem C4_filter_bases (pairs : List PairInfo) (pb : List Nat)
    (hlen : pairs.length = pb.length) :
    filter_bases pairs pb.enum =
      some (ClassicalMsg.bases (pairs.enum.map fun ip => (ip.1, ip.2.basis)),
        List.zipWith (fun p rb => { p with same_basis := some (p.basis == rb) })
          pairs pb) ∧
    (∀ i p rb, pairs.get? i = some p → pb.get? i = some rb →
      (List.zipWith (fun p rb => { p with same_basis := some (p.basis == rb) })
        pairs pb).get? i = some { p with same_basis := some (p.basis == rb) }) := by
  constructor
  · have hbases : (pairs.enum.map fun ip => (ip.1, ip.2.basis)) =
        List.enumFrom 0 (pairs.map (·.basis)) := enumFrom_map_fst (·.basis) pairs 0
    have hupd := applyBasisUpdates_aligned pairs pb [] hlen
    simp only [List.nil_append, List.length_nil] at hupd
    show (applyBasisUpdates pairs
        ((pairs.enum.map fun ip => (ip.1, ip.2.basis)).zip pb.enum)).bind _ = _
    rw [hbases]
    show (applyBasisUpdates pairs
        ((List.enumFrom 0 (pairs.map (·.basis))).zip (List.enumFrom 0 pb))).bind _ = _
    rw [hupd]
    rfl
  · intro i p rb h1 h2
    exact get?_zipWith _ pairs pb i p rb h1 h2

/-- C4 witness: reconciling local bases `(Z, X, Z)` against peer
bases `(Z, Z, Z)` yields `same_basis = (true, false, true)`. -/
theorem C4_filter_bases_witness :
    filter_bases
      [{ index := 0, basis := 0, outcome := 0 }, { index := 1, basis := 1, outcome := 1 },
       { index := 2, basis := 0, outcome := 0 }] ([0, 0, 0] : List Nat).enum =
      some (ClassicalMsg.bases [(0, 0), (1, 1), (2, 0)],
        [{ index := 0, basis := 0, outcome := 0, same_basis := some true },
         { index := 1, basis := 1, outcome := 1, same_basis := some false },
         { index := 2, basis := 0, outcome := 0, same_basis := some true }]) :=
  (C4_filter_bases
    [{ index := 0, basis := 0, outcome := 0 }, { index := 1, basis := 1, outcome := 1 },
     { index := 2, basis := 0, outcome := 0 }] [0, 0, 0] (by decide)).1

/-- C6, counterexample: Alice does not *emit* the completion sentinel
— she consumes it.  A run only proceeds when the sentinel arrives as
the first received classical message (third conjunct: any other
message aborts), and the messages Alice herself sends in a completed
run — here a complete concrete run — are the three structured
messages, never the sentinel (second conjunct). -/
theorem C6_counterexample :
    main_run 1 [0] [0] ALL_MEASURED [(0, 0)] [0] [(0, 0)] =
      some ([ClassicalMsg.bases [(0, 0)], ClassicalMsg.testIndices [0],
        ClassicalMsg.testOutcomes [(0, 0)]],
        [{ index := 0, basis := 0, outcome := 0, same_basis := some true,
           test_outcome := some true, same_outcome := some true }], 0) ∧
    ClassicalMsg.plain ALL_MEASURED ∉
      ([ClassicalMsg.bases [(0, 0)], ClassicalMsg.testIndices [0],
        ClassicalMsg.testOutcomes [(0, 0)]] : List ClassicalMsg) ∧
    main_run 1 [0] [0] "Bases list incoming" [(0, 0)] [0] [(0, 0)] = none :=
  ⟨main_run_concrete, by decide, rfl⟩

/-- C6 (amended): once all pairs are measured and before Basis
Reconciliation begins, Alice *waits for* the distinct completion
sentinel `"All qubits measured"` from the peer on the classical
channel; receiving any message other than the sentinel at this point
is a fatal protocol error (`RuntimeError`) that aborts the run.  In
any successful run the first received message was the sentinel, and
Alice's own sends contain no plain message at all — in particular not
the sentinel, which she never emits. -/
theorem C6_sentinel (nb : Nat) (bf of : List Nat) (m0 : String)
    (rb : List (Nat × Nat)) (ti : List Nat) (tgt : List (Nat × Nat))
    (out : List ClassicalMsg × List PairInfo × ℚ) :
    (m0 ≠ ALL_MEASURED → main_run nb bf of m0 rb ti tgt = none) ∧
    (main_run nb bf of m0 rb ti tgt = some out →
      m0 = ALL_MEASURED ∧
      ClassicalMsg.plain ALL_MEASURED ∉ out.1 ∧
      out.1.countP (fun m => match m with
        | ClassicalMsg.plain _ => true
        | _ => false) = 0) := by
  constructor
  · intro hm0
    simp only [main_run]
    cases hp : mkPairs nb bf of with
    | none => rfl
    | some pairs =>
      simp only [Option.bind_eq_bind, Option.some_bind, if_neg hm0]
  · intro h
    obtain ⟨hm0, pairs, fb, touts, hp, hout1, hfb, hto⟩ :=
      main_run_inv nb bf of m0 rb ti tgt out h
    refine ⟨hm0, ?_, ?_⟩
    · rw [hout1]
      simp
    · rw [hout1]
      rfl

/-- C6 witness: a non-sentinel first message (here `"ACK"`) aborts;
the concrete completed run received the sentinel and sent only the
three structured messages. -/
theorem C6_sentinel_witness :
    main_run 1 [0] [0] "ACK" [(0, 0)] [0] [(0, 0)] = none ∧
    (ALL_MEASURED = ALL_MEASURED ∧
      ClassicalMsg.plain ALL_MEASURED ∉
        ([ClassicalMsg.bases [(0, 0)], ClassicalMsg.testIndices [0],
          ClassicalMsg.testOutcomes [(0, 0)]] : List ClassicalMsg) ∧
      ([ClassicalMsg.bases [(0, 0)], ClassicalMsg.testIndices [0],
        ClassicalMsg.testOutcomes [(0, 0)]] : List ClassicalMsg).countP
        (fun m => match m with
          | ClassicalMsg.plain _ => true
          | _ => false) = 0) :=
  ⟨(C6_sentinel 1 [0] [0] "ACK" [(0, 0)] [0] [(0, 0)]
      ([], [], 0)).1 (by decide),
   (C6_sentinel 1 [0] [0] ALL_MEASURED [(0, 0)] [0] [(0, 0)]
      ([ClassicalMsg.bases [(0, 0)], ClassicalMsg.testIndices [0],
        ClassicalMsg.testOutcomes [(0, 0)]],
        [{ index := 0, basis := 0, outcome := 0, same_basis := some true,
           test_outcome := some true, same_outcome := some true }], 0)).2
     main_run_concrete⟩

/-- C7, counterexample: the FIFO contract does not hold for *every*
partition of the sent bytes into transport reads.  Sending `"ab"` then
`"cd"` produces the bytes `"abEOFcdEOF"`; the partition into the reads
`"abEOFcd"` and `"EOF"` (a valid partition of those bytes, but not
aligned to frame boundaries) makes the two receives return `"ab"` and
then `""` — not the sent `"cd"`, whose bytes were silently discarded
by the `[:-1]` slice. -/
theorem C7_counterexample :
    "abEOFcd".toList ++ "EOF".toList = sendBytes EOFsep [['a','b'], ['c','d']] ∧
    recvMany EOFsep 2 ⟨[], ["abEOFcd".toList, "EOF".toList]⟩ =
      some ([['a','b'], []], ⟨[], []⟩) ∧
    ([['a','b'], []] : List (List Char)) ≠ [['a','b'], ['c','d']] :=
  ⟨by decide, by decide, by decide⟩

/-- C7 (amended): for every sequence of sent messages none of which
contains the delimiter, and every partition of the sent bytes into
transport reads that is aligned to frame boundaries (each read is the
concatenation of one or more complete delimited messages), each
receive returns exactly one logical message and the whole sequence
comes back in FIFO send order, surplus messages of a batched read
being served from the buffer before any further transport read. -/
theorem C7_fifo (batches : List (List (List Char)))
    (hne : ∀ b ∈ batches, b ≠ [])
    (hclean : ∀ b ∈ batches, ∀ m ∈ b, clean EOFsep m) :
    (batches.map (sendBytes EOFsep)).flatten = sendBytes EOFsep batches.flatten ∧
    recvMany EOFsep batches.flatten.length ⟨[], batches.map (sendBytes EOFsep)⟩ =
      some (batches.flatten, ⟨[], []⟩) :=
  ⟨sendBytes_flatten EOFsep batches,
   recvMany_batches EOFsep (by decide) batches hne hclean⟩

/-- C7 witness: two sends batched as reads `"hiEOF"` and
`"aEOFbcEOF"` come back as `"hi"`, `"a"`, `"bc"`. -/
theorem C7_fifo_witness :
    (([[['h','i']], [['a'], ['b','c']]] : List (List (List Char))).map
        (sendBytes EOFsep)).flatten =
      sendBytes EOFsep ([[['h','i']], [['a'], ['b','c']]] :
        List (List (List Char))).flatten ∧
    recvMany EOFsep ([[['h','i']], [['a'], ['b','c']]] :
        List (List (List Char))).flatten.length
      ⟨[], ([[['h','i']], [['a'], ['b','c']]] : List (List (List Char))).map
        (sendBytes EOFsep)⟩ =
      some (([[['h','i']], [['a'], ['b','c']]] :
        List (List (List Char))).flatten, ⟨[], []⟩) :=
  C7_fifo [[['h','i']], [['a'], ['b','c']]] (by decide) (by decide)

/-- C10: `recv_single_msg` with an empty buffer succeeds exactly when
the transport read holds at least one complete delimited message: a
read `m ++ EOF ++ y` whose trailing chunk `y` holds no delimiter
returns `m` and silently discards `y` (it reaches neither the caller,
the buffer, nor later reads); a read with no delimiter occurrence at
all makes the first-element access `msgs[0]` fail (`IndexError`)
instead of returning a value. -/
theorem C10_recv_partial (m y r : List Char) (rs : List (List Char))
    (hm : clean EOFsep m) (hy : noDelim EOFsep y) (hr : noDelim EOFsep r) :
    recvOne EOFsep ⟨[], (m ++ (EOFsep ++ y)) :: rs⟩ = some (m, ⟨[], rs⟩) ∧
    recvOne EOFsep ⟨[], r :: rs⟩ = none := by
  have hsplit1 : pySplit EOFsep (m ++ (EOFsep ++ y)) = m :: [y] := by
    rw [pySplit_clean_append EOFsep (by decide) m hm y, pySplit_noDelim EOFsep y hy]
  have hsplit2 : pySplit EOFsep r = [r] := pySplit_noDelim EOFsep r hr
  constructor
  · unfold recvOne
    simp only [hsplit1]
    rfl
  · unfold recvOne
    simp only [hsplit2]
    rfl

/-- C10 witness: read `"hiEOFzz"` returns `"hi"` and discards `"zz"`;
read `"no"` (no delimiter) fails. -/
theorem C10_recv_partial_witness :
    recvOne EOFsep ⟨[], (['h','i'] ++ (EOFsep ++ ['z','z'])) :: [['q']]⟩ =
      some (['h','i'], ⟨[], [['q']]⟩) ∧
    recvOne EOFsep ⟨[], ['n','o'] :: [['q']]⟩ = none :=
  C10_recv_partial ['h','i'] ['z','z'] ['n','o'] [['q']]
    (by decide) (by decide) (by decide)

end QKD
